import Mathlib

/-!
Verification of the go-sheetkv core (in-memory cache, dirty tracking, query
engine, sync coordination) against its natural-language specification.

Shallow embedding conventions:
- Go `interface` values stored in records and conditions are modeled by the
  inductive `GoValue`. Go `int` and `int64` are kept as distinct constructors
  (both carrying unbounded `Int`) because Go interface comparison
  distinguishes the dynamic types; key arithmetic is modeled unbounded since
  no claim involves 64-bit wraparound.
- Go `float64` payloads are modeled by `Rat`. Every float the claims touch is
  a small integer, which float64 represents exactly, so rational arithmetic
  is faithful on the reachable inputs.
- Go maps (`map[int]*Record`, `map[string]interface{}`, `map[int]bool`) are
  modeled by association lists without duplicate keys. Iteration order of a
  Go map is unspecified by the language; the model iterates in list order,
  and any list order is a legal Go iteration order.
- Deep copies (`copyRecord`) are identity under value semantics and are not
  modeled separately. Mutex acquisition is not modeled; each exported cache
  method is atomic, matching the per-method locking in cache.go.
- Errors are modeled with `Except`; retry backoff sleeps are elided (they do
  not affect state).
-/

/-- Dynamic (interface) values stored in records, query conditions, and
update maps. Constructors mirror the Go dynamic types that the embedded
functions dispatch on. -/
inductive GoValue where
  | vnil
  | vbool (b : Bool)
  | vstr (s : String)
  | vint (n : Int)
  | vint64 (n : Int)
  | vfloat (q : Rat)
  | vstrs (l : List String)
  | vlist (l : List GoValue)

/-- Go interface equality (`==` / `!=` on two interface values): equal iff
the dynamic types are identical and the payloads compare equal. Slices are
not comparable in Go (comparing them panics); the slice constructors fall
into the catch-all, which is never reached by the embedded code. -/
def GoValue.ifaceEq : GoValue → GoValue → Bool
  | .vnil, .vnil => true
  | .vbool a, .vbool b => a == b
  | .vstr a, .vstr b => a == b
  | .vint a, .vint b => a == b
  | .vint64 a, .vint64 b => a == b
  | .vfloat a, .vfloat b => a == b
  | _, _ => false

/-- isNumeric from query.go, restricted to the numeric dynamic types present
in the model (Go also lists the other fixed-width ints and float32, which no
embedded caller can produce). -/
def isNumeric : GoValue → Bool
  | .vint _ => true
  | .vint64 _ => true
  | .vfloat _ => true
  | _ => false

/-- toFloat64 from query.go: numeric payload widened to float64 (here `Rat`);
non-numeric values map to 0 as in the Go default branch. -/
def toFloat64 : GoValue → Rat
  | .vint n => (n : Rat)
  | .vint64 n => (n : Rat)
  | .vfloat q => q
  | _ => 0

mutual

/-- Go `fmt.Sprintf` with the `%v` verb, as used by compareEqual and
GetAsStrings. Decimal formatting for ints, `true`/`false` for bools, the
bracketed space-joined form for slices, `<nil>` for nil. The float64 case is
abstracted as rational toString; no proved claim reaches it. -/
def goFormat : GoValue → String
  | .vnil => "<nil>"
  | .vbool true => "true"
  | .vbool false => "false"
  | .vstr s => s
  | .vint n => toString n
  | .vint64 n => toString n
  | .vfloat q => toString q
  | .vstrs l => "[" ++ String.intercalate " " l ++ "]"
  | .vlist l => "[" ++ String.intercalate " " (goFormatList l) ++ "]"

def goFormatList : List GoValue → List String
  | [] => []
  | x :: xs => goFormat x :: goFormatList xs

end

/-- Association-list update modeling Go map assignment `m[k] = v`: replaces
the binding in place if present, otherwise adds a new binding (Go iteration
order of fresh keys is unspecified; the model appends). -/
def mapInsert {κ ν : Type} [DecidableEq κ] (m : List (κ × ν)) (k : κ) (v : ν) :
    List (κ × ν) :=
  match m with
  | [] => [(k, v)]
  | (k', v') :: rest => if k' = k then (k, v) :: rest else (k', v') :: mapInsert rest k v

/-- Association-list lookup modeling Go map read `m[k]`. -/
def mapLookup {κ ν : Type} [DecidableEq κ] (m : List (κ × ν)) (k : κ) : Option ν :=
  match m with
  | [] => none
  | (k', v) :: rest => if k' = k then some v else mapLookup rest k

/-- Association-list removal modeling Go `delete(m, k)`. -/
def mapErase {κ ν : Type} [DecidableEq κ] (m : List (κ × ν)) (k : κ) : List (κ × ν) :=
  match m with
  | [] => []
  | (k', v) :: rest => if k' = k then rest else (k', v) :: mapErase rest k

/-- Record from record.go: row key plus the column-to-value map. -/
structure Record where
  Key : Int
  Values : List (String × GoValue)

/-- Go `strings.Join(xs, ",")`, modeled at the character-list level (the
separator is the single character comma, so character-level intercalation
coincides with Go substring joining). -/
def goJoin (xs : List String) : String :=
  ⟨List.intercalate [','] (xs.map String.toList)⟩

/-- Go `strings.Split(s, ",")` for the single-character separator. -/
def goSplit (s : String) : List String :=
  (s.toList.splitOn ',').map fun l => ⟨l⟩

namespace Record

/-- Record.GetAsStrings from record.go. -/
def GetAsStrings (r : Record) (col : String) (defaultValue : List String) :
    List String :=
  match mapLookup r.Values col with
  | none => defaultValue
  | some v =>
    match v with
    | .vstrs l => l
    | .vstr s => if s = "" then [] else goSplit s
    | .vlist l => goFormatList l
    | _ => defaultValue

/-- Record.GetAsBool from record.go. The combined `case int, int64` branch
compares the interface value against the untyped constant 0, which Go types
as `int`; the comparison is therefore Go interface equality, not numeric
equality. -/
def GetAsBool (r : Record) (col : String) (defaultValue : Bool) : Bool :=
  match mapLookup r.Values col with
  | none => defaultValue
  | some v =>
    match v with
    | .vbool b => b
    | .vstr s => s == "true" || s == "1"
    | .vint n => !(GoValue.ifaceEq (.vint n) (.vint 0))
    | .vint64 n => !(GoValue.ifaceEq (.vint64 n) (.vint 0))
    | .vfloat q => !(q == 0)
    | _ => defaultValue

/-- Record.SetStrings from record.go: stores the comma-joined string (lazy
map initialization is a no-op under the list model). -/
def SetStrings (r : Record) (col : String) (value : List String) : Record :=
  { r with Values := mapInsert r.Values col (.vstr (goJoin value)) }

end Record

/-- Condition from query.go. -/
structure Condition where
  Column : String
  Operator : String
  Value : GoValue

/-- Query from query.go. Limit and Offset are Go ints. -/
structure Query where
  Conditions : List Condition
  Limit : Int := 0
  Offset : Int := 0

/-- compareEqual from query.go: nil equals only nil; two numerics compare by
float64 coercion; everything else falls back to comparing the Sprintf forms. -/
def compareEqual (a b : GoValue) : Bool :=
  match a, b with
  | .vnil, .vnil => true
  | .vnil, _ => false
  | _, .vnil => false
  | a, b =>
    if isNumeric a && isNumeric b then toFloat64 a == toFloat64 b
    else goFormat a == goFormat b

/-- compareGreater from query.go. -/
def compareGreater (a b : GoValue) : Bool :=
  if !(isNumeric a) || !(isNumeric b) then false else toFloat64 a > toFloat64 b

/-- compareGreaterEqual from query.go. -/
def compareGreaterEqual (a b : GoValue) : Bool :=
  if !(isNumeric a) || !(isNumeric b) then false else toFloat64 a ≥ toFloat64 b

/-- compareLess from query.go. -/
def compareLess (a b : GoValue) : Bool :=
  if !(isNumeric a) || !(isNumeric b) then false else toFloat64 a < toFloat64 b

/-- compareLessEqual from query.go. -/
def compareLessEqual (a b : GoValue) : Bool :=
  if !(isNumeric a) || !(isNumeric b) then false else toFloat64 a ≤ toFloat64 b

/-- compareIn from query.go: the comparison value must be a Go
interface-slice, and each element is tested with compareEqual. -/
def compareIn (a b : GoValue) : Bool :=
  match b with
  | .vlist l => l.any fun item => compareEqual a item
  | _ => false

/-- compareBetween from query.go. The Go source accepts the bounds either as
an `interface` pair or as a 2-element slice; both shapes are modeled as a
2-element `vlist`. -/
def compareBetween (a b : GoValue) : Bool :=
  match b with
  | .vlist [lo, hi] =>
    if !(isNumeric a) || !(isNumeric lo) || !(isNumeric hi) then false
    else toFloat64 a ≥ toFloat64 lo && toFloat64 a ≤ toFloat64 hi
  | _ => false

/-- evalCondition from query.go: a missing column is read as the nil value,
then the operator dispatches. -/
def evalCondition (record : Record) (condition : Condition) : Bool :=
  let value :=
    match mapLookup record.Values condition.Column with
    | none => GoValue.vnil
    | some v => v
  if condition.Operator = "==" then compareEqual value condition.Value
  else if condition.Operator = "!=" then !(compareEqual value condition.Value)
  else if condition.Operator = ">" then compareGreater value condition.Value
  else if condition.Operator = ">=" then compareGreaterEqual value condition.Value
  else if condition.Operator = "<" then compareLess value condition.Value
  else if condition.Operator = "<=" then compareLessEqual value condition.Value
  else if condition.Operator = "in" then compareIn value condition.Value
  else if condition.Operator = "between" then compareBetween value condition.Value
  else false

/-- Record.MatchesQuery from query.go: the AND of all conditions. -/
def Record.MatchesQuery (r : Record) (query : Query) : Bool :=
  query.Conditions.all fun condition => evalCondition r condition

/-- The trailing limit step of ApplyQuery from query.go. -/
def applyLimit (results : List Record) (limit : Int) : List Record :=
  if limit > 0 ∧ limit < (results.length : Int) then results.take limit.toNat
  else results

/-- ApplyQuery from query.go: filter in input order, then offset (an offset
at or past the end returns empty immediately), then limit. -/
def ApplyQuery (records : List Record) (query : Query) : List Record :=
  let results := records.filter fun r => r.MatchesQuery query
  if query.Offset > 0 ∧ query.Offset < (results.length : Int) then
    applyLimit (results.drop query.Offset.toNat) query.Limit
  else if query.Offset ≥ (results.length : Int) then []
  else applyLimit results query.Limit

/-- The valid operator list from ValidateQuery in query.go. -/
def validOps : List String := ["==", "!=", ">", ">=", "<", "<=", "in", "between"]

/-- ValidateQuery from query.go. Error messages are abbreviated (the Go
versions interpolate the condition index); only success versus failure is
load-bearing for the claims. -/
def ValidateQuery (query : Query) : Except String Unit := do
  for cond in query.Conditions do
    if !(validOps.contains cond.Operator) then
      throw "invalid operator"
    if cond.Operator = "in" then
      match cond.Value with
      | .vlist _ => pure ()
      | _ => throw "operator in requires a slice value"
    if cond.Operator = "between" then
      match cond.Value with
      | .vlist l => if l.length = 2 then pure () else throw "operator between requires 2 elements"
      | _ => throw "operator between requires 2 elements"
    if cond.Column = "" then
      throw "empty column name"
  if query.Limit < 0 then throw "limit must be non-negative"
  if query.Offset < 0 then throw "offset must be non-negative"
  pure ()

/-- Error values from errors.go. -/
inductive GoError where
  | keyNotFound
  | duplicateKey
  | syncFailed
  | invalidQuery (msg : String)
  | clientClosed
  deriving DecidableEq

/-- Insertion step for ascending Int sort (modeling sort.Ints). -/
def insertInt (k : Int) : List Int → List Int
  | [] => [k]
  | x :: xs => if k ≤ x then k :: x :: xs else x :: insertInt k xs

/-- Ascending sort of Int keys, modeling sort.Ints in GetDirtyKeys. -/
def sortInts (l : List Int) : List Int := l.foldr insertInt []

/-- Insertion step for ascending sort of records by key. -/
def insertRecord (r : Record) : List Record → List Record
  | [] => [r]
  | x :: xs => if r.Key ≤ x.Key then r :: x :: xs else x :: insertRecord r xs

/-- Ascending sort of records by key, modeling the sort.Slice call in
GetAllRecords. -/
def sortRecords (l : List Record) : List Record := l.foldr insertRecord []

/-- Cache from cache.go: record map, dirty map, schema column list. The two
maps iterate in list order (a legal Go map iteration order). -/
structure Cache where
  data : List (Int × Record)
  dirty : List (Int × Bool)
  schema : List String

namespace Cache

/-- NewCache from cache.go. -/
def new : Cache := { data := [], dirty := [], schema := [] }

/-- updateSchema from cache.go: append the new columns of the record, in the
iteration order of its values map. -/
def updateSchema (schema : List String) (record : Record) : List String :=
  record.Values.foldl (fun sch kv => if sch.contains kv.1 then sch else sch ++ [kv.1])
    schema

/-- Cache.Get from cache.go. -/
def Get (c : Cache) (key : Int) : Except GoError Record :=
  match mapLookup c.data key with
  | none => .error .keyNotFound
  | some record => .ok record

/-- Cache.Set from cache.go: force the record key, store, mark dirty, extend
the schema. Always succeeds (the Go version returns a nil error). -/
def Set (c : Cache) (key : Int) (record : Record) : Cache :=
  let record := { record with Key := key }
  { c with
    data := mapInsert c.data key record
    dirty := mapInsert c.dirty key true
    schema := updateSchema c.schema record }

/-- Cache.Append from cache.go: duplicate-key error if the record key is
already present, otherwise store, mark dirty, extend the schema. -/
def Append (c : Cache) (record : Record) : Except GoError Cache :=
  match mapLookup c.data record.Key with
  | some _ => .error .duplicateKey
  | none =>
    .ok { c with
      data := mapInsert c.data record.Key record
      dirty := mapInsert c.dirty record.Key true
      schema := updateSchema c.schema record }

/-- Cache.Update from cache.go: not-found if absent; merge the updates into a
copy, a nil update value deleting the column; mark dirty; extend the schema.
The updates map iterates in list order. -/
def Update (c : Cache) (key : Int) (updates : List (String × GoValue)) :
    Except GoError Cache :=
  match mapLookup c.data key with
  | none => .error .keyNotFound
  | some record =>
    let updatedRecord :=
      { record with
        Values := updates.foldl
          (fun values kv =>
            match kv.2 with
            | .vnil => mapErase values kv.1
            | v => mapInsert values kv.1 v)
          record.Values }
    .ok { c with
      data := mapInsert c.data key updatedRecord
      dirty := mapInsert c.dirty key true
      schema := updateSchema c.schema updatedRecord }

/-- Cache.Delete from cache.go: not-found if absent; remove the key from both
the data map and the dirty map. -/
def Delete (c : Cache) (key : Int) : Except GoError Cache :=
  match mapLookup c.data key with
  | none => .error .keyNotFound
  | some _ =>
    .ok { c with
      data := mapErase c.data key
      dirty := mapErase c.dirty key }

/-- Cache.Query from cache.go: validate, collect the records in map iteration
order (the Go source does not sort here, unlike GetAllRecords), apply the
query. -/
def Query (c : Cache) (query : Query) : Except GoError (List Record) :=
  match ValidateQuery query with
  | .error msg => .error (.invalidQuery msg)
  | .ok _ => .ok (ApplyQuery (c.data.map Prod.snd) query)

/-- Cache.GetAllRecords from cache.go: all records sorted ascending by key. -/
def GetAllRecords (c : Cache) : List Record :=
  sortRecords (c.data.map Prod.snd)

/-- Cache.GetDirtyKeys from cache.go: the keys mapped to true, sorted
ascending. -/
def GetDirtyKeys (c : Cache) : List Int :=
  sortInts ((c.dirty.filter fun kv => kv.2).map Prod.fst)

/-- Cache.ClearDirty from cache.go: replace the dirty map wholesale with a
fresh empty map. -/
def ClearDirty (c : Cache) : Cache := { c with dirty := [] }

/-- Cache.GetSchema from cache.go. -/
def GetSchema (c : Cache) : List String := c.schema

/-- Cache.Load from cache.go: clear both maps, load the records keyed by
their own key fields, replace the schema. -/
def Load (c : Cache) (records : List Record) (schema : List String) : Cache :=
  { c with
    data := records.foldl (fun data r => mapInsert data r.Key r) []
    dirty := []
    schema := schema }

end Cache

/-- SyncStrategy from adapter.go: gap-preserving keeps deleted rows blank so
row numbers never shift; compacting rewrites rows contiguously. -/
inductive SyncStrategy where
  | gapPreserving
  | compacting
  deriving DecidableEq

/-- The retry loop of Client.saveToAdapter from client.go, after the dirty
check: attempt index runs from i with the given budget of remaining
attempts (the Go loop runs maxRetries + 1 attempts in total); the adapter
outcome of attempt i is `outcomes i`. On the first success the dirty set is
cleared and the loop returns ok; on budget exhaustion the error surfaces and
the cache is untouched. The returned Nat counts adapter save calls made.
Backoff sleeps are elided. -/
def saveLoop (c : Cache) (outcomes : Nat → Bool) :
    Nat → Nat → Except GoError Unit × Cache × Nat
  | _, 0 => (.error .syncFailed, c, 0)
  | i, budget + 1 =>
    if outcomes i then (.ok (), c.ClearDirty, 1)
    else
      let (res, c', calls) := saveLoop c outcomes (i + 1) budget
      (res, c', calls + 1)

/-- Modelled from the spec: the strategy parameter of Client.saveToAdapter.
The copy of client.go under src/ predates the SyncStrategy parameter of
Adapter.Save (it calls Save with three arguments and would not compile
against the Adapter interface in adapter.go); the strategy-passing client
save path exists in the repository only through its declaration
(adapter.go) and its callers (the sync-strategy integration tests). Per the
spec, the caller chooses the strategy and saveToAdapter passes the same
strategy on every retry attempt; the dirty short-circuit and retry/clear
logic below are taken from the client.go under src/. Returns the result, the
cache after the call, and the list of strategies of the adapter save calls
actually made (one entry per attempt). -/
def saveToAdapter (c : Cache) (maxRetries : Nat) (strategy : SyncStrategy)
    (outcomes : Nat → Bool) : Except GoError Unit × Cache × List SyncStrategy :=
  if c.GetDirtyKeys.isEmpty then (.ok (), c, [])
  else
    let (res, c', calls) := saveLoop c outcomes 0 (maxRetries + 1)
    (res, c', List.replicate calls strategy)

/-- The next-key computation of Client.Append from client.go: fold the
records with a running maximum started at 1 (row 1 is the header). -/
def appendMaxKey (c : Cache) : Int :=
  c.GetAllRecords.foldl (fun maxKey r => if r.Key > maxKey then r.Key else maxKey) 1

/-- Client.Append from client.go: assign maxKey + 1 to the record, then
delegate to Cache.Append. Returns the outcome together with the assigned
key. -/
def clientAppend (c : Cache) (record : Record) : Except GoError Cache × Int :=
  let key := appendMaxKey c + 1
  (c.Append { record with Key := key }, key)

/-- Which client path requested an adapter save call. -/
inductive SaveOrigin where
  | oSync
  | oTick
  | oClose
  deriving DecidableEq

/-- One adapter save call, tagged with the requesting client path. -/
structure SaveCall where
  origin : SaveOrigin
  strategy : SyncStrategy
  deriving DecidableEq

/-- One client-facade event: an explicit Sync call, a periodic scheduler
tick, a Close call (each carrying the adapter outcomes its retry loop will
see), or a cache mutation through the facade. -/
inductive CEvent where
  | sync (outcomes : Nat → Bool)
  | tick (outcomes : Nat → Bool)
  | close (outcomes : Nat → Bool)
  | setRec (key : Int) (record : Record)
  | deleteRec (key : Int)

/-- Client state: the cache plus the closed flag from client.go. -/
structure CState where
  cache : Cache
  closed : Bool

/-- Initial client state (New in client.go starts with a fresh cache, open). -/
def initialCState : CState := { cache := Cache.new, closed := false }

/-- One step of the client facade, from client.go with the spec-modelled
strategy selection: Sync saves gap-preserving; a scheduler tick checks the
dirty keys (performSync) and then saves gap-preserving; Close stops the
scheduler, marks the client closed and performs the one final compacting
save; Sync and mutations on a closed client fail fast without touching the
adapter; after Close the scheduler is stopped, so a tick performs nothing;
a second Close returns immediately. -/
def clientStep (maxRetries : Nat) (s : CState) : CEvent → CState × List SaveCall
  | .sync outcomes =>
    if s.closed then (s, [])
    else
      let (_, c', strategies) :=
        saveToAdapter s.cache maxRetries .gapPreserving outcomes
      ({ s with cache := c' }, strategies.map fun st => ⟨.oSync, st⟩)
  | .tick outcomes =>
    if s.closed then (s, [])
    else if s.cache.GetDirtyKeys.isEmpty then (s, [])
    else
      let (_, c', strategies) :=
        saveToAdapter s.cache maxRetries .gapPreserving outcomes
      ({ s with cache := c' }, strategies.map fun st => ⟨.oTick, st⟩)
  | .close outcomes =>
    if s.closed then (s, [])
    else
      let (_, c', strategies) :=
        saveToAdapter s.cache maxRetries .compacting outcomes
      ({ cache := c', closed := true }, strategies.map fun st => ⟨.oClose, st⟩)
  | .setRec key record =>
    if s.closed then (s, [])
    else ({ s with cache := s.cache.Set key record }, [])
  | .deleteRec key =>
    if s.closed then (s, [])
    else
      match s.cache.Delete key with
      | .ok c' => ({ s with cache := c' }, [])
      | .error _ => (s, [])

/-- Run a list of client events, accumulating the adapter save calls. -/
def clientRun (maxRetries : Nat) (s : CState) : List CEvent → CState × List SaveCall
  | [] => (s, [])
  | e :: es =>
    let (s', calls) := clientStep maxRetries s e
    let (s'', rest) := clientRun maxRetries s' es
    (s'', calls ++ rest)

/-- A save racing with cache mutations, as the sequence of atomic steps of
saveToAdapter (each Cache method is atomic under the cache lock, but
saveToAdapter holds no lock across its steps, and a scheduler-driven save
holds no client lock, so facade mutations can land between any two of its
steps). `mut1` is the aggregate mutation landing after the GetDirtyKeys
snapshot and before the GetAllRecords snapshot; `mut2` is the aggregate
mutation landing after the records snapshot and before ClearDirty runs
(covering the whole adapter call); `saveOk` is the adapter outcome. Returns
the final cache and the record snapshot handed to the adapter (none when the
dirty short-circuit skipped the save). -/
def interleavedSave (c : Cache) (mut1 mut2 : Cache → Cache) (saveOk : Bool) :
    Cache × Option (List Record) :=
  if c.GetDirtyKeys.isEmpty then (mut2 (mut1 c), none)
  else
    let c1 := mut1 c
    let snapshot := c1.GetAllRecords
    let c2 := mut2 c1
    if saveOk then (c2.ClearDirty, some snapshot) else (c2, some snapshot)

/-- One cache operation, for reasoning about operation sequences. -/
inductive CacheOp where
  | set (key : Int) (record : Record)
  | append (record : Record)
  | update (key : Int) (updates : List (String × GoValue))
  | delete (key : Int)
  | load (records : List Record) (schema : List String)
  | clearDirty

/-- Execute one cache operation; a failing operation (duplicate key,
not-found) leaves the cache unchanged, as the Go methods return before
mutating anything. -/
def execOp (c : Cache) : CacheOp → Cache
  | .set key record => c.Set key record
  | .append record =>
    match c.Append record with
    | .ok c' => c'
    | .error _ => c
  | .update key updates =>
    match c.Update key updates with
    | .ok c' => c'
    | .error _ => c
  | .delete key =>
    match c.Delete key with
    | .ok c' => c'
    | .error _ => c
  | .load records schema => c.Load records schema
  | .clearDirty => c.ClearDirty

/-- Execute a sequence of cache operations from a starting state. -/
def execOps (c : Cache) (ops : List CacheOp) : Cache := ops.foldl execOp c

/-- The fold step of the Client.Append next-key scan (named form of the
source lambda, for lemma statements). -/
def maxKeyStep (maxKey : Int) (r : Record) : Int :=
  if r.Key > maxKey then r.Key else maxKey
/-- A record with a single integer age column, as in the C5 scenario. -/
def ageRec (key : Int) (age : Int) : Record := ⟨key, [("age", .vint age)]⟩
/-- The C5 query: age at least 20 and at most 30. -/
def c5q : Query := ⟨[⟨"age", ">=", .vint 20⟩, ⟨"age", "<=", .vint 30⟩], 0, 0⟩
/-- A cache holding the five C5 records whose map iterates keys in the order
6, 5, 4, 3, 2 (any iteration order is legal for a Go map; this one arises
here from the insertion order of the Set calls). -/
def c5cacheDesc : Cache :=
  ((((Cache.new.Set 6 (ageRec 6 35)).Set 5 (ageRec 5 30)).Set 4
    (ageRec 4 25)).Set 3 (ageRec 3 20)).Set 2 (ageRec 2 15)
/-- The same five records inserted in ascending key order. -/
def c5cacheAsc : Cache :=
  ((((Cache.new.Set 2 (ageRec 2 15)).Set 3 (ageRec 3 20)).Set 4
    (ageRec 4 25)).Set 5 (ageRec 5 30)).Set 6 (ageRec 6 35)
/-- The key constraints a cache operation must respect for the row-key
invariant: Set and Append supply the key explicitly or through the record,
Load supplies the keys of all loaded records; the remaining operations
introduce no new keys. -/
def CacheOp.keysOk : CacheOp → Prop
  | .set key _ => 2 ≤ key
  | .append record => 2 ≤ record.Key
  | .load records _ => ∀ r ∈ records, 2 ≤ r.Key
  | _ => True
/-- The dirty-tracking well-formedness invariant: every dirty entry refers to
a key present in the data map, and the dirty map has no duplicate keys (as a
Go map cannot). -/
def DirtyInv (c : Cache) : Prop :=
  (∀ kv ∈ c.dirty, kv.1 ∈ c.data.map Prod.fst) ∧ (c.dirty.map Prod.fst).Nodup

section MapLemmas

variable {κ ν : Type} [DecidableEq κ]

theorem mapLookup_mapInsert_self (m : List (κ × ν)) (k : κ) (v : ν) :
    mapLookup (mapInsert m k v) k = some v := by
  induction m with
  | nil => simp [mapInsert, mapLookup]
  | cons hd tl ih =>
    by_cases h : hd.1 = k
    · simp [mapInsert, mapLookup, h]
    · simpa [mapInsert, mapLookup, h] using ih

theorem mapLookup_eq_none (m : List (κ × ν)) (k : κ) (h : ∀ kv ∈ m, kv.1 ≠ k) :
    mapLookup m k = none := by
  induction m with
  | nil => rfl
  | cons hd tl ih =>
    have hne : hd.1 ≠ k := h hd (List.mem_cons_self hd tl)
    simpa [mapLookup, hne] using ih fun kv hkv => h kv (List.mem_cons_of_mem hd hkv)

theorem mapLookup_some_mem (m : List (κ × ν)) (k : κ) (v : ν)
    (h : mapLookup m k = some v) : (k, v) ∈ m := by
  induction m with
  | nil => simp [mapLookup] at h
  | cons hd tl ih =>
    by_cases hk : hd.1 = k
    · simp only [mapLookup, hk, if_pos, Option.some.injEq] at h
      have hd_eq : hd = (k, v) := by
        cases hd
        simp_all
      exact List.mem_cons.mpr (Or.inl hd_eq.symm)
    · simp only [mapLookup, hk, if_neg, if_false] at h
      exact List.mem_cons_of_mem hd (ih h)

theorem mem_mapInsert (m : List (κ × ν)) (k : κ) (v : ν) (kv : κ × ν)
    (h : kv ∈ mapInsert m k v) : kv = (k, v) ∨ kv ∈ m := by
  induction m with
  | nil => simpa [mapInsert] using h
  | cons hd tl ih =>
    by_cases hk : hd.1 = k
    · simp only [mapInsert, hk, if_pos] at h
      rcases List.mem_cons.mp h with h | h
      · exact Or.inl h
      · exact Or.inr (List.mem_cons_of_mem hd h)
    · simp only [mapInsert, hk, if_neg, if_false] at h
      rcases List.mem_cons.mp h with h | h
      · exact Or.inr (h ▸ List.mem_cons_self hd tl)
      · rcases ih h with h | h
        · exact Or.inl h
        · exact Or.inr (List.mem_cons_of_mem hd h)

theorem keys_mapInsert (m : List (κ × ν)) (k : κ) (v : ν) :
    (mapInsert m k v).map Prod.fst =
      if k ∈ m.map Prod.fst then m.map Prod.fst else m.map Prod.fst ++ [k] := by
  induction m with
  | nil => simp [mapInsert]
  | cons hd tl ih =>
    by_cases hk : hd.1 = k
    · simp [mapInsert, hk]
    · have hk' : ¬ k = hd.1 := fun h => hk h.symm
      by_cases hmem : k ∈ tl.map Prod.fst
      · simp [mapInsert, hk, ih, hmem, hk']
      · simp [mapInsert, hk, ih, hmem, hk']

theorem mem_keys_mapInsert_self (m : List (κ × ν)) (k : κ) (v : ν) :
    k ∈ (mapInsert m k v).map Prod.fst := by
  rw [keys_mapInsert]
  by_cases h : k ∈ m.map Prod.fst <;> simp [h]

theorem mem_keys_mapInsert_of_mem (m : List (κ × ν)) (k k' : κ) (v : ν)
    (h : k' ∈ m.map Prod.fst) : k' ∈ (mapInsert m k v).map Prod.fst := by
  rw [keys_mapInsert]
  by_cases hk : k ∈ m.map Prod.fst <;> simp [hk, h]

theorem nodup_keys_mapInsert (m : List (κ × ν)) (k : κ) (v : ν)
    (h : (m.map Prod.fst).Nodup) : ((mapInsert m k v).map Prod.fst).Nodup := by
  rw [keys_mapInsert]
  by_cases hk : k ∈ m.map Prod.fst
  · simpa [hk] using h
  · simp only [hk, if_neg, if_false]
    refine List.Nodup.append h (List.nodup_singleton k) ?_
    intro a ha hb
    rw [List.mem_singleton] at hb
    exact hk (hb ▸ ha)

theorem mapErase_subset (m : List (κ × ν)) (k : κ) (kv : κ × ν)
    (h : kv ∈ mapErase m k) : kv ∈ m := by
  induction m with
  | nil => simp [mapErase] at h
  | cons hd tl ih =>
    by_cases hk : hd.1 = k
    · simp only [mapErase, hk, if_pos] at h
      exact List.mem_cons_of_mem hd h
    · simp only [mapErase, hk, if_neg, if_false] at h
      rcases List.mem_cons.mp h with h | h
      · exact h ▸ List.mem_cons_self hd tl
      · exact List.mem_cons_of_mem hd (ih h)

theorem keys_mapErase_sublist (m : List (κ × ν)) (k : κ) :
    ((mapErase m k).map Prod.fst).Sublist (m.map Prod.fst) := by
  induction m with
  | nil => simp [mapErase]
  | cons hd tl ih =>
    by_cases hk : hd.1 = k
    · simp only [mapErase, hk, if_pos, List.map_cons]
      exact List.sublist_cons_self _ _
    · simp only [mapErase, hk, if_neg, if_false, List.map_cons]
      exact ih.cons₂ hd.1

theorem mem_mapErase_key_ne (m : List (κ × ν)) (k : κ) (kv : κ × ν)
    (hnd : (m.map Prod.fst).Nodup) (h : kv ∈ mapErase m k) : kv.1 ≠ k := by
  induction m with
  | nil => simp [mapErase] at h
  | cons hd tl ih =>
    by_cases hk : hd.1 = k
    · simp only [mapErase, hk, if_pos] at h
      intro hkv
      have : kv.1 ∈ tl.map Prod.fst := List.mem_map_of_mem Prod.fst h
      rw [List.map_cons] at hnd
      exact (List.nodup_cons.mp hnd).1 (by rw [hk, ← hkv]; exact this)
    · simp only [mapErase, hk, if_neg, if_false] at h
      rcases List.mem_cons.mp h with h | h
      · exact h ▸ hk
      · exact ih (List.nodup_cons.mp (List.map_cons Prod.fst hd tl ▸ hnd)).2 h

theorem mem_keys_mapErase (m : List (κ × ν)) (k k' : κ) (hne : k' ≠ k)
    (h : k' ∈ m.map Prod.fst) : k' ∈ (mapErase m k).map Prod.fst := by
  induction m with
  | nil => simp at h
  | cons hd tl ih =>
    by_cases hk : hd.1 = k
    · rcases List.mem_map.mp h with ⟨kv, hkv, hfst⟩
      rcases List.mem_cons.mp hkv with hkv | hkv
      · exact absurd (hfst ▸ hkv ▸ hk) hne
      · simp only [mapErase, hk, if_pos]
        exact hfst ▸ List.mem_map_of_mem Prod.fst hkv
    · simp only [mapErase, hk, if_neg, if_false, List.map_cons]
      rcases List.mem_cons.mp h with h | h
      · exact h ▸ List.mem_cons_self _ _
      · exact List.mem_cons_of_mem _ (ih h)

end MapLemmas

theorem insertInt_perm (k : Int) (l : List Int) : (insertInt k l).Perm (k :: l) := by
  induction l with
  | nil => simp [insertInt]
  | cons x xs ih =>
    by_cases h : k ≤ x
    · simp [insertInt, h]
    · simp only [insertInt, h, if_neg, if_false]
      exact (ih.cons x).trans (List.Perm.swap k x xs)

theorem sortInts_perm (l : List Int) : (sortInts l).Perm l := by
  induction l with
  | nil => simp [sortInts]
  | cons x xs ih =>
    exact (insertInt_perm x (sortInts xs)).trans (ih.cons x)

theorem insertRecord_perm (r : Record) (l : List Record) :
    (insertRecord r l).Perm (r :: l) := by
  induction l with
  | nil => simp [insertRecord]
  | cons x xs ih =>
    by_cases h : r.Key ≤ x.Key
    · simp [insertRecord, h]
    · simp only [insertRecord, h, if_neg, if_false]
      exact (ih.cons x).trans (List.Perm.swap r x xs)

theorem sortRecords_perm (l : List Record) : (sortRecords l).Perm l := by
  induction l with
  | nil => simp [sortRecords]
  | cons x xs ih =>
    exact (insertRecord_perm x (sortRecords xs)).trans (ih.cons x)

theorem saveLoop_all_fail (c : Cache) (outcomes : Nat → Bool)
    (h : ∀ i, outcomes i = false) :
    ∀ budget i, saveLoop c outcomes i budget = (.error .syncFailed, c, budget) := by
  intro budget
  induction budget with
  | zero => intro i; rfl
  | succ b ih =>
    intro i
    simp only [saveLoop, h i, Bool.false_eq_true, if_false, ih (i + 1)]

theorem saveLoop_first_success (c : Cache) (outcomes : Nat → Bool) (i budget : Nat)
    (h : outcomes i = true) :
    saveLoop c outcomes i (budget + 1) = (.ok (), c.ClearDirty, 1) := by
  simp [saveLoop, h]

theorem getDirtyKeys_clearDirty (c : Cache) : c.ClearDirty.GetDirtyKeys = [] := rfl

/-- C2: saveToAdapter short-circuits with success and no adapter call when the
dirty set is empty; when every attempt fails it returns the sync-failed error
after maxRetries + 1 calls with the cache (dirty set included) exactly as it
was; and a subsequent save whose attempt succeeds clears the dirty set. -/
theorem c2_save_dirty_handling (c : Cache) (maxRetries : Nat) (st : SyncStrategy)
    (outcomes outcomes2 : Nat → Bool) :
    (c.GetDirtyKeys = [] → saveToAdapter c maxRetries st outcomes = (.ok (), c, []))
  ∧ (c.GetDirtyKeys ≠ [] → (∀ i, outcomes i = false) →
      saveToAdapter c maxRetries st outcomes =
        (.error .syncFailed, c, List.replicate (maxRetries + 1) st))
  ∧ (c.GetDirtyKeys ≠ [] → (∀ i, outcomes i = false) → (∀ i, outcomes2 i = true) →
      (saveToAdapter c maxRetries st outcomes).2.1.GetDirtyKeys = c.GetDirtyKeys ∧
        (saveToAdapter (saveToAdapter c maxRetries st outcomes).2.1 maxRetries st
            outcomes2).2.1.GetDirtyKeys = []) := by
  refine ⟨?_, ?_, ?_⟩
  · intro h
    simp [saveToAdapter, h]
  · intro hne hfail
    have hempty : c.GetDirtyKeys.isEmpty = false := by
      cases hGetDirty : c.GetDirtyKeys with
      | nil => exact absurd hGetDirty hne
      | cons x xs => rfl
    simp [saveToAdapter, hempty, saveLoop_all_fail c outcomes hfail (maxRetries + 1) 0]
  · intro hne hfail hok
    have hempty : c.GetDirtyKeys.isEmpty = false := by
      cases hGetDirty : c.GetDirtyKeys with
      | nil => exact absurd hGetDirty hne
      | cons x xs => rfl
    have hfailed : (saveToAdapter c maxRetries st outcomes).2.1 = c := by
      simp [saveToAdapter, hempty,
        saveLoop_all_fail c outcomes hfail (maxRetries + 1) 0]
    refine ⟨by rw [hfailed], ?_⟩
    rw [hfailed]
    simp [saveToAdapter, hempty, saveLoop_first_success c outcomes2 0 maxRetries (hok 0),
      getDirtyKeys_clearDirty]

/-- C2 witness: concrete run with one dirty key, two total attempts, all
failing, then an all-success retry. -/
theorem c2_save_dirty_handling_witness :
    ((Cache.new.Set 2 ⟨2, [("a", GoValue.vint 1)]⟩).GetDirtyKeys ≠ [] ∧
      (∀ i : Nat, (fun _ : Nat => false) i = false) ∧
      (∀ i : Nat, (fun _ : Nat => true) i = true)) ∧
    ((saveToAdapter (Cache.new.Set 2 ⟨2, [("a", GoValue.vint 1)]⟩) 1 .gapPreserving
          (fun _ => false)).2.1.GetDirtyKeys =
        (Cache.new.Set 2 ⟨2, [("a", GoValue.vint 1)]⟩).GetDirtyKeys ∧
      (saveToAdapter (saveToAdapter (Cache.new.Set 2 ⟨2, [("a", GoValue.vint 1)]⟩) 1
            .gapPreserving (fun _ => false)).2.1 1 .gapPreserving
          (fun _ => true)).2.1.GetDirtyKeys = []) :=
  ⟨⟨by decide, fun _ => rfl, fun _ => rfl⟩,
    (c2_save_dirty_handling (Cache.new.Set 2 ⟨2, [("a", GoValue.vint 1)]⟩) 1
        .gapPreserving (fun _ => false) (fun _ => true)).2.2
      (by decide) (fun _ => rfl) (fun _ => rfl)⟩

/-- C6 (code bug): GetAsBool on a stored int64 zero returns true, because the
combined `case int, int64` branch of the Go type switch compares the
interface value against the untyped constant 0, which is typed as `int`; the
dynamic types int64 and int differ, so the inequality holds and the function
reports true for the numeric zero. The int and float64 zeros return false as
the claim states, and nonzero int64 returns true. -/
theorem c6_getasbool_int64_zero :
    Record.GetAsBool ⟨2, [("active", .vint64 0)]⟩ "active" false = true ∧
    Record.GetAsBool ⟨2, [("active", .vint 0)]⟩ "active" true = false ∧
    Record.GetAsBool ⟨2, [("active", .vfloat 0)]⟩ "active" true = false ∧
    Record.GetAsBool ⟨2, [("active", .vint64 5)]⟩ "active" false = true :=
  ⟨rfl, rfl, rfl, rfl⟩

theorem compareEqual_vnil_left (v : GoValue) :
    compareEqual .vnil v = true ↔ v = .vnil := by
  cases v <;> simp [compareEqual]

theorem compareGreater_vnil (v : GoValue) : compareGreater .vnil v = false := rfl

theorem compareGreaterEqual_vnil (v : GoValue) :
    compareGreaterEqual .vnil v = false := rfl

theorem compareLess_vnil (v : GoValue) : compareLess .vnil v = false := rfl

theorem compareLessEqual_vnil (v : GoValue) : compareLessEqual .vnil v = false := rfl

theorem compareIn_vnil (v : GoValue) :
    compareIn .vnil v = true ↔ ∃ l, v = .vlist l ∧ GoValue.vnil ∈ l := by
  cases v <;> simp [compareIn, List.any_eq_true, compareEqual_vnil_left]

theorem compareBetween_vnil (v : GoValue) : compareBetween .vnil v = false := by
  cases v with
  | vlist l =>
    match l with
    | [] => rfl
    | [a] => rfl
    | [a, b] => rfl
    | a :: b :: x :: rest => rfl
  | vnil => rfl
  | vbool b => rfl
  | vstr s => rfl
  | vint n => rfl
  | vint64 n => rfl
  | vfloat q => rfl
  | vstrs l => rfl

/-- C4 counterexample: on a record without column a, the condition
(a != "x") evaluates to true although its operator is != and its comparison
value is the non-null string "x"; the claim allows a missing-column match
only against a null comparison value. -/
theorem c4_counterexample :
    evalCondition ⟨2, []⟩ ⟨"a", "!=", .vstr "x"⟩ = true ∧
    GoValue.vstr "x" ≠ GoValue.vnil ∧
    mapLookup (⟨2, []⟩ : Record).Values "a" = none :=
  ⟨rfl, ⟨fun h => GoValue.noConfusion h, rfl⟩⟩

/-- C4 as amended: a missing column is read as null, and the condition is
then true exactly when the operator is == with a null comparison value, or
the operator is != with a non-null comparison value, or the operator is in
with a list containing null; every ordering operator (and between, and any
unknown operator) evaluates to false on a missing column. -/
theorem c4_missing_column (record : Record) (condition : Condition)
    (h : mapLookup record.Values condition.Column = none) :
    (evalCondition record condition = true ↔
      (condition.Operator = "==" ∧ condition.Value = GoValue.vnil) ∨
      (condition.Operator = "!=" ∧ condition.Value ≠ GoValue.vnil) ∨
      (condition.Operator = "in" ∧ ∃ l, condition.Value = .vlist l ∧ GoValue.vnil ∈ l)) ∧
    ((condition.Operator = ">" ∨ condition.Operator = ">=" ∨
        condition.Operator = "<" ∨ condition.Operator = "<=") →
      evalCondition record condition = false) := by
  constructor
  · unfold evalCondition
    rw [h]
    split_ifs with h1 h2 h3 h4 h5 h6 h7 h8
    · simp [h1, compareEqual_vnil_left]
    · simp [h1, h2, Bool.not_eq_true']
      constructor
      · intro hf hv
        rw [(compareEqual_vnil_left _).mpr hv] at hf
        cases hf
      · intro hnv
        cases hcv : compareEqual GoValue.vnil condition.Value
        · rfl
        · exact absurd ((compareEqual_vnil_left _).mp hcv) hnv
    · simp [h1, h2, h3, compareGreater_vnil]
    · simp [h1, h2, h3, h4, compareGreaterEqual_vnil]
    · simp [h1, h2, h3, h4, h5, compareLess_vnil]
    · simp [h1, h2, h3, h4, h5, h6, compareLessEqual_vnil]
    · simp [h1, h2, h3, h4, h5, h6, h7, compareIn_vnil]
    · simp [h1, h2, h3, h4, h5, h6, h7, h8, compareBetween_vnil]
    · simp [h1, h2, h3, h4, h5, h6, h7, h8]
  · intro hop
    unfold evalCondition
    rw [h]
    rcases hop with h' | h' | h' | h' <;>
      simp [h', compareGreater_vnil, compareGreaterEqual_vnil, compareLess_vnil,
        compareLessEqual_vnil]

theorem string_mk_toList (s : String) : String.mk s.toList = s := by
  cases s
  rfl

/-- C8 counterexample: the singleton list holding the empty string contains
no comma, yet SetStrings stores it as the empty joined string, which
GetAsStrings special-cases to the empty list, so the round trip does not
return the original list. -/
theorem c8_counterexample :
    (Record.SetStrings ⟨2, []⟩ "tags" [""]).GetAsStrings "tags" ["d"] = [] ∧
    (([] : List String) ≠ [""]) ∧ (∀ s ∈ [""], ',' ∉ s.toList) :=
  ⟨rfl, by decide, by decide⟩

/-- C8 as amended: for every list of comma-free strings other than the
singleton empty string (which serializes to the empty joined string and
deserializes to the empty list), SetStrings followed by GetAsStrings returns
the original list, and the stored form is the single comma-joined string. -/
theorem c8_roundtrip (r : Record) (col : String) (l d : List String)
    (hnc : ∀ s ∈ l, ',' ∉ s.toList) (hne : l ≠ [""]) :
    (r.SetStrings col l).GetAsStrings col d = l ∧
    mapLookup (r.SetStrings col l).Values col = some (.vstr (goJoin l)) := by
  have hlook : mapLookup (r.SetStrings col l).Values col = some (.vstr (goJoin l)) :=
    mapLookup_mapInsert_self _ _ _
  refine ⟨?_, hlook⟩
  unfold Record.GetAsStrings
  rw [hlook]
  rcases l with _ | ⟨a, l'⟩
  · show (if goJoin [] = "" then [] else goSplit (goJoin [])) = []
    decide
  · have hx : ∀ cs ∈ (a :: l').map String.toList, ',' ∉ cs := by
      intro cs hcs
      rcases List.mem_map.mp hcs with ⟨s, hs, rfl⟩
      exact hnc s hs
    have hls : (a :: l').map String.toList ≠ [] := by simp
    have hsplit : ((goJoin (a :: l')).toList).splitOn ',' = (a :: l').map String.toList :=
      List.splitOn_intercalate ((a :: l').map String.toList) ',' hx hls
    have hjoin_ne : goJoin (a :: l') ≠ "" := by
      intro hempty
      have h0 : ((goJoin (a :: l')).toList).splitOn ',' = [[]] := by
        rw [hempty]
        rfl
      rw [hsplit] at h0
      rcases l' with _ | ⟨b, l''⟩
      · simp only [List.map_cons, List.map_nil, List.cons.injEq, and_true] at h0
        have ha : a = "" := by
          rw [← string_mk_toList a, h0]
        exact hne (by rw [ha])
      · simp at h0
    show (if goJoin (a :: l') = "" then [] else goSplit (goJoin (a :: l'))) = a :: l'
    rw [if_neg hjoin_ne]
    show (((goJoin (a :: l')).toList).splitOn ',').map (fun cs => String.mk cs) = a :: l'
    rw [hsplit, List.map_map]
    have : ((fun cs => String.mk cs) ∘ String.toList) = id := by
      funext s
      exact string_mk_toList s
    rw [this, List.map_id]

/-- C8 witness: the round trip and the stored joined form for the two-element
list. -/
theorem c8_roundtrip_witness :
    ((∀ s ∈ ["a", "b"], ',' ∉ s.toList) ∧ ["a", "b"] ≠ [""]) ∧
    ((Record.SetStrings ⟨2, []⟩ "tags" ["a", "b"]).GetAsStrings "tags" [] = ["a", "b"] ∧
      mapLookup (Record.SetStrings ⟨2, []⟩ "tags" ["a", "b"]).Values "tags" =
        some (.vstr (goJoin ["a", "b"]))) :=
  ⟨⟨by decide, by decide⟩,
    c8_roundtrip ⟨2, []⟩ "tags" ["a", "b"] [] (by decide) (by decide)⟩

theorem foldl_maxKey_spec (l : List Record) (a : Int) :
    a ≤ l.foldl maxKeyStep a ∧
    (l.foldl maxKeyStep a = a ∨ ∃ r ∈ l, r.Key = l.foldl maxKeyStep a) ∧
    ∀ r ∈ l, r.Key ≤ l.foldl maxKeyStep a := by
  induction l generalizing a with
  | nil => exact ⟨le_refl a, Or.inl rfl, fun r hr => absurd hr (List.not_mem_nil r)⟩
  | cons hd tl ih =>
    rw [List.foldl_cons]
    rcases ih (maxKeyStep a hd) with ⟨hle, heq, hall⟩
    have hacc : a ≤ maxKeyStep a hd := by
      unfold maxKeyStep
      by_cases h : hd.Key > a <;> simp [h]
      omega
    have hhd : hd.Key ≤ maxKeyStep a hd := by
      unfold maxKeyStep
      by_cases h : hd.Key > a <;> simp [h]
      omega
    refine ⟨le_trans hacc hle, ?_, ?_⟩
    · rcases heq with heq | ⟨r, hr, hrk⟩
      · by_cases h : hd.Key > a
        · refine Or.inr ⟨hd, List.mem_cons_self hd tl, ?_⟩
          rw [heq]
          unfold maxKeyStep
          simp [h]
        · left
          rw [heq]
          unfold maxKeyStep
          simp [h]
      · exact Or.inr ⟨r, List.mem_cons_of_mem hd hr, hrk⟩
    · intro r hr
      rcases List.mem_cons.mp hr with hr | hr
      · rw [hr]
        exact le_trans hhd hle
      · exact hall r hr

/-- C3 counterexample: a cache holding exactly one record at key 0 (reachable
through Set, which performs no key validation). The claim formula gives
0 + 1 = 1 for the next append key, while Client.Append assigns 2, since the
running maximum starts at 1 and every present key is below it. -/
theorem c3_counterexample :
    (Cache.new.Set 0 ⟨0, []⟩).data.map Prod.fst = [0] ∧
    (clientAppend (Cache.new.Set 0 ⟨0, []⟩) ⟨0, []⟩).2 = 2 ∧
    ((0 : Int) + 1 ≠ 2) :=
  ⟨rfl, rfl, by decide⟩

/-- C3 as amended: on every cache whose map entries carry their own key (the
shape every reachable state has), Client.Append assigns
max(1, maximum existing key) + 1 — strictly above every present key, so
Cache.Append never reports a duplicate key; the running maximum is 1 or an
existing key, so after deleting the maximum record the freed key is handed
out again by the next append. The claim formula (maximum present key) + 1
holds whenever some key is at least 1, but a cache whose keys are all below
1 receives key 2 instead. -/
theorem c3_append_key (c : Cache) (r : Record)
    (hkeys : ∀ kv ∈ c.data, (kv.2).Key = kv.1) :
    (∀ kv ∈ c.data, kv.1 < (clientAppend c r).2) ∧
    (∃ c', (clientAppend c r).1 = Except.ok c') ∧
    (clientAppend c r).2 = appendMaxKey c + 1 ∧
    1 ≤ appendMaxKey c ∧
    (appendMaxKey c = 1 ∨ ∃ kv ∈ c.data, kv.1 = appendMaxKey c) := by
  have hMdef : appendMaxKey c = c.GetAllRecords.foldl maxKeyStep 1 := rfl
  rcases foldl_maxKey_spec c.GetAllRecords 1 with ⟨hone, hattain, hbound⟩
  rw [← hMdef] at hone hattain hbound
  have hmem_iff : ∀ rec : Record, rec ∈ c.GetAllRecords ↔ rec ∈ c.data.map Prod.snd :=
    fun rec => (sortRecords_perm (c.data.map Prod.snd)).mem_iff
  have hkey_le : ∀ kv ∈ c.data, kv.1 ≤ appendMaxKey c := by
    intro kv hkv
    have : kv.2 ∈ c.GetAllRecords :=
      (hmem_iff kv.2).mpr (List.mem_map_of_mem Prod.snd hkv)
    have := hbound kv.2 this
    rw [hkeys kv hkv] at this
    exact this
  have hlt : ∀ kv ∈ c.data, kv.1 < appendMaxKey c + 1 := by
    intro kv hkv
    exact lt_of_le_of_lt (hkey_le kv hkv) (by omega)
  have hfresh : mapLookup c.data (appendMaxKey c + 1) = none := by
    apply mapLookup_eq_none
    intro kv hkv
    exact ne_of_lt (hlt kv hkv)
  refine ⟨hlt, ?_, rfl, hone, ?_⟩
  · refine ⟨{ c with
        data := mapInsert c.data (appendMaxKey c + 1)
          { r with Key := appendMaxKey c + 1 }
        dirty := mapInsert c.dirty (appendMaxKey c + 1) true
        schema := Cache.updateSchema c.schema { r with Key := appendMaxKey c + 1 } }, ?_⟩
    show c.Append { r with Key := appendMaxKey c + 1 } = _
    unfold Cache.Append
    rw [hfresh]
  · rcases hattain with h | ⟨rec, hrec, hreck⟩
    · exact Or.inl h
    · rcases List.mem_map.mp ((hmem_iff rec).mp hrec) with ⟨kv, hkv, hsnd⟩
      refine Or.inr ⟨kv, hkv, ?_⟩
      rw [← hkeys kv hkv, hsnd, hreck]

/-- C3 witness: the amended statement on a cache with keys 2 and 5; the next
append receives key 6. -/
theorem c3_append_key_witness :
    (∀ kv ∈ ((Cache.new.Set 2 ⟨2, []⟩).Set 5 ⟨5, []⟩).data, (kv.2).Key = kv.1) ∧
    ((∀ kv ∈ ((Cache.new.Set 2 ⟨2, []⟩).Set 5 ⟨5, []⟩).data,
        kv.1 < (clientAppend ((Cache.new.Set 2 ⟨2, []⟩).Set 5 ⟨5, []⟩) ⟨0, []⟩).2) ∧
      (∃ c', (clientAppend ((Cache.new.Set 2 ⟨2, []⟩).Set 5 ⟨5, []⟩) ⟨0, []⟩).1 =
        Except.ok c') ∧
      (clientAppend ((Cache.new.Set 2 ⟨2, []⟩).Set 5 ⟨5, []⟩) ⟨0, []⟩).2 =
        appendMaxKey ((Cache.new.Set 2 ⟨2, []⟩).Set 5 ⟨5, []⟩) + 1 ∧
      1 ≤ appendMaxKey ((Cache.new.Set 2 ⟨2, []⟩).Set 5 ⟨5, []⟩) ∧
      (appendMaxKey ((Cache.new.Set 2 ⟨2, []⟩).Set 5 ⟨5, []⟩) = 1 ∨
        ∃ kv ∈ ((Cache.new.Set 2 ⟨2, []⟩).Set 5 ⟨5, []⟩).data,
          kv.1 = appendMaxKey ((Cache.new.Set 2 ⟨2, []⟩).Set 5 ⟨5, []⟩))) :=
  ⟨by decide, c3_append_key ((Cache.new.Set 2 ⟨2, []⟩).Set 5 ⟨5, []⟩) ⟨0, []⟩ (by decide)⟩

/-- C5 counterexample: Cache.Query collects the records in map iteration
order and never sorts (unlike GetAllRecords), so on a cache iterating keys
descending the three matching records come back with keys 5, 4, 3 — not in
ascending key order as the claim states. -/
theorem c5_counterexample :
    c5cacheDesc.data =
      [(6, ageRec 6 35), (5, ageRec 5 30), (4, ageRec 4 25), (3, ageRec 3 20),
        (2, ageRec 2 15)] ∧
    c5cacheDesc.Query c5q = .ok [ageRec 5 30, ageRec 4 25, ageRec 3 20] ∧
    (ageRec 5 30).Key = 5 ∧ (ageRec 4 25).Key = 4 ∧
    ¬ (5 : Int) ≤ 4 :=
  ⟨rfl, rfl, rfl, rfl, by decide⟩

/-- C5 as amended: on every cache holding exactly the five age records, the
query returns exactly the three records with ages 20, 25 and 30 — as a set;
their order is the unspecified map iteration order of the cache, not
necessarily ascending by key. -/
theorem c5_query_age_range (c : Cache)
    (h : c.data.Perm
      [(2, ageRec 2 15), (3, ageRec 3 20), (4, ageRec 4 25), (5, ageRec 5 30),
        (6, ageRec 6 35)]) :
    ∃ l, c.Query c5q = .ok l ∧ l.Perm [ageRec 3 20, ageRec 4 25, ageRec 5 30] := by
  have hperm : (c.data.map Prod.snd).Perm
      [ageRec 2 15, ageRec 3 20, ageRec 4 25, ageRec 5 30, ageRec 6 35] :=
    h.map Prod.snd
  have hfilter : ((c.data.map Prod.snd).filter fun r => r.MatchesQuery c5q).Perm
      ([ageRec 2 15, ageRec 3 20, ageRec 4 25, ageRec 5 30, ageRec 6 35].filter
        fun r => r.MatchesQuery c5q) :=
    hperm.filter _
  have hconc : ([ageRec 2 15, ageRec 3 20, ageRec 4 25, ageRec 5 30,
      ageRec 6 35].filter fun r => r.MatchesQuery c5q) =
      [ageRec 3 20, ageRec 4 25, ageRec 5 30] := rfl
  rw [hconc] at hfilter
  have hlen : ((c.data.map Prod.snd).filter fun r => r.MatchesQuery c5q).length = 3 := by
    rw [hfilter.length_eq]
    rfl
  refine ⟨(c.data.map Prod.snd).filter fun r => r.MatchesQuery c5q, ?_, hfilter⟩
  have hv : ValidateQuery c5q = .ok () := rfl
  unfold Cache.Query
  rw [hv]
  have happly : ApplyQuery (c.data.map Prod.snd) c5q =
      (c.data.map Prod.snd).filter fun r => r.MatchesQuery c5q := by
    unfold ApplyQuery
    simp [applyLimit, hlen, c5q]
  rw [happly]

/-- C5 witness: the amended statement on the ascending-order cache, where the
result order happens to be ascending. -/
theorem c5_query_age_range_witness :
    c5cacheAsc.data.Perm
      [(2, ageRec 2 15), (3, ageRec 3 20), (4, ageRec 4 25), (5, ageRec 5 30),
        (6, ageRec 6 35)] ∧
    (∃ l, c5cacheAsc.Query c5q = .ok l ∧
      l.Perm [ageRec 3 20, ageRec 4 25, ageRec 5 30]) :=
  ⟨List.Perm.refl _, c5_query_age_range c5cacheAsc (List.Perm.refl _)⟩

/-- C4 witness: the amended characterization applied to a record without the
column, for the == null and the ordering cases. -/
theorem c4_missing_column_witness :
    mapLookup (⟨2, [("b", GoValue.vint 1)]⟩ : Record).Values "a" = none ∧
    evalCondition ⟨2, [("b", GoValue.vint 1)]⟩ ⟨"a", "==", .vnil⟩ = true ∧
    evalCondition ⟨2, [("b", GoValue.vint 1)]⟩ ⟨"a", ">=", .vint 0⟩ = false :=
  ⟨rfl,
    ((c4_missing_column ⟨2, [("b", GoValue.vint 1)]⟩ ⟨"a", "==", .vnil⟩ rfl).1.mpr
      (Or.inl ⟨rfl, rfl⟩)),
    ((c4_missing_column ⟨2, [("b", GoValue.vint 1)]⟩ ⟨"a", ">=", .vint 0⟩ rfl).2
      (Or.inr (Or.inl rfl)))⟩

theorem load_fold_keys (records : List Record) (acc : List (Int × Record))
    (hacc : ∀ kv ∈ acc, 2 ≤ kv.1) (hrec : ∀ r ∈ records, 2 ≤ r.Key) :
    ∀ kv ∈ records.foldl (fun data r => mapInsert data r.Key r) acc, 2 ≤ kv.1 := by
  induction records generalizing acc with
  | nil => exact hacc
  | cons hd tl ih =>
    rw [List.foldl_cons]
    refine ih (mapInsert acc hd.Key hd) ?_ fun r hr => hrec r (List.mem_cons_of_mem hd hr)
    intro kv hkv
    rcases mem_mapInsert acc hd.Key hd kv hkv with h | h
    · rw [h]
      exact hrec hd (List.mem_cons_self hd tl)
    · exact hacc kv h

theorem execOp_keys_ge (c : Cache) (op : CacheOp) (hop : op.keysOk)
    (hc : ∀ kv ∈ c.data, 2 ≤ kv.1) : ∀ kv ∈ (execOp c op).data, 2 ≤ kv.1 := by
  cases op with
  | set key record =>
    intro kv hkv
    rcases mem_mapInsert c.data key { record with Key := key } kv hkv with h | h
    · rw [h]
      exact hop
    · exact hc kv h
  | append record =>
    cases hl : mapLookup c.data record.Key with
    | some r0 =>
      simp only [execOp, Cache.Append, hl]
      exact hc
    | none =>
      simp only [execOp, Cache.Append, hl]
      intro kv hkv
      rcases mem_mapInsert c.data record.Key record kv hkv with h | h
      · rw [h]
        exact hop
      · exact hc kv h
  | update key updates =>
    cases hl : mapLookup c.data key with
    | none =>
      simp only [execOp, Cache.Update, hl]
      exact hc
    | some record =>
      simp only [execOp, Cache.Update, hl]
      intro kv hkv
      rcases mem_mapInsert c.data key _ kv hkv with h | h
      · rw [h]
        exact hc (key, record) (mapLookup_some_mem c.data key record hl)
      · exact hc kv h
  | delete key =>
    cases hl : mapLookup c.data key with
    | none =>
      simp only [execOp, Cache.Delete, hl]
      exact hc
    | some record =>
      simp only [execOp, Cache.Delete, hl]
      intro kv hkv
      exact hc kv (mapErase_subset c.data key kv hkv)
  | load records schema =>
    intro kv hkv
    exact load_fold_keys records [] (by simp) hop kv hkv
  | clearDirty => exact hc

/-- C7 counterexample: Cache.Set performs no key validation, so setting key 0
is accepted and produces a state whose data map holds the key 0, violating
the claimed invariant that every present key is at least 2. -/
theorem c7_counterexample :
    (Cache.new.Set 0 ⟨1, [("a", GoValue.vint 1)]⟩).data.map Prod.fst = [0] ∧
    ¬ (2 ≤ (0 : Int)) :=
  ⟨rfl, by decide⟩

/-- C7 as amended: the cache itself never validates keys, so the invariant
holds only conditionally — after any operation sequence from a new cache in
which every key handed to Set, Append or Load is at least 2, every key
present in the data map is at least 2. Called with arbitrary key arguments
(for example Set with key 0) the invariant is not preserved. -/
theorem c7_key_invariant (ops : List CacheOp) (h : ∀ op ∈ ops, op.keysOk) :
    ∀ kv ∈ (execOps Cache.new ops).data, 2 ≤ kv.1 := by
  suffices hgen : ∀ (c : Cache), (∀ kv ∈ c.data, 2 ≤ kv.1) →
      (∀ op ∈ ops, op.keysOk) → ∀ kv ∈ (execOps c ops).data, 2 ≤ kv.1 by
    exact hgen Cache.new (by simp [Cache.new]) h
  clear h
  induction ops with
  | nil => exact fun c hc _ => hc
  | cons op rest ih =>
    intro c hc hops
    have hstep := execOp_keys_ge c op (hops op (List.mem_cons_self op rest)) hc
    exact ih (execOp c op) hstep fun o ho => hops o (List.mem_cons_of_mem op ho)

/-- C7 witness: a set, a delete and a load with conforming keys, checked on
the resulting state. -/
theorem c7_key_invariant_witness :
    (∀ op ∈ [CacheOp.set 2 ⟨2, []⟩, CacheOp.set 3 ⟨3, []⟩, CacheOp.delete 2,
        CacheOp.load [⟨4, []⟩] ["a"]], op.keysOk) ∧
    (∀ kv ∈ (execOps Cache.new [CacheOp.set 2 ⟨2, []⟩, CacheOp.set 3 ⟨3, []⟩,
        CacheOp.delete 2, CacheOp.load [⟨4, []⟩] ["a"]]).data, 2 ≤ kv.1) :=
  ⟨by
    intro op hop
    fin_cases hop <;> simp [CacheOp.keysOk],
    c7_key_invariant [CacheOp.set 2 ⟨2, []⟩, CacheOp.set 3 ⟨3, []⟩, CacheOp.delete 2,
      CacheOp.load [⟨4, []⟩] ["a"]] (by
        intro op hop
        fin_cases hop <;> simp [CacheOp.keysOk])⟩

theorem execOp_dirtyInv (c : Cache) (op : CacheOp) (h : DirtyInv c) :
    DirtyInv (execOp c op) := by
  rcases h with ⟨hsub, hnd⟩
  cases op with
  | set key record =>
    refine ⟨?_, nodup_keys_mapInsert c.dirty key true hnd⟩
    intro kv hkv
    rcases mem_mapInsert c.dirty key true kv hkv with h | h
    · rw [h]
      exact mem_keys_mapInsert_self c.data key _
    · exact mem_keys_mapInsert_of_mem c.data key kv.1 _ (hsub kv h)
  | append record =>
    cases hl : mapLookup c.data record.Key with
    | some r0 =>
      simp only [execOp, Cache.Append, hl]
      exact ⟨hsub, hnd⟩
    | none =>
      simp only [execOp, Cache.Append, hl]
      refine ⟨?_, nodup_keys_mapInsert c.dirty record.Key true hnd⟩
      intro kv hkv
      rcases mem_mapInsert c.dirty record.Key true kv hkv with h | h
      · rw [h]
        exact mem_keys_mapInsert_self c.data record.Key record
      · exact mem_keys_mapInsert_of_mem c.data record.Key kv.1 record (hsub kv h)
  | update key updates =>
    cases hl : mapLookup c.data key with
    | none =>
      simp only [execOp, Cache.Update, hl]
      exact ⟨hsub, hnd⟩
    | some record =>
      simp only [execOp, Cache.Update, hl]
      refine ⟨?_, nodup_keys_mapInsert c.dirty key true hnd⟩
      intro kv hkv
      rcases mem_mapInsert c.dirty key true kv hkv with h | h
      · rw [h]
        exact mem_keys_mapInsert_self c.data key _
      · exact mem_keys_mapInsert_of_mem c.data key kv.1 _ (hsub kv h)
  | delete key =>
    cases hl : mapLookup c.data key with
    | none =>
      simp only [execOp, Cache.Delete, hl]
      exact ⟨hsub, hnd⟩
    | some record =>
      simp only [execOp, Cache.Delete, hl]
      constructor
      · intro kv hkv
        have hmem : kv ∈ c.dirty := mapErase_subset c.dirty key kv hkv
        have hne : kv.1 ≠ key := mem_mapErase_key_ne c.dirty key kv hnd hkv
        exact mem_keys_mapErase c.data key kv.1 hne (hsub kv hmem)
      · exact (keys_mapErase_sublist c.dirty key).nodup hnd
  | load records schema => exact ⟨by simp [execOp, Cache.Load], by simp [execOp, Cache.Load]⟩
  | clearDirty => exact ⟨by simp [execOp, Cache.ClearDirty], by simp [execOp, Cache.ClearDirty]⟩

theorem execOps_dirtyInv (ops : List CacheOp) :
    DirtyInv (execOps Cache.new ops) := by
  suffices hgen : ∀ (c : Cache), DirtyInv c → DirtyInv (execOps c ops) by
    exact hgen Cache.new ⟨by simp [Cache.new], by simp [Cache.new]⟩
  induction ops with
  | nil => exact fun c hc => hc
  | cons op rest ih => exact fun c hc => ih (execOp c op) (execOp_dirtyInv c op hc)

/-- C10: after any operation sequence on a new cache, every key reported by
GetDirtyKeys is present in the data map — Delete removes the key from both
maps, Load clears the dirty map, and every dirtying operation stores the
record under the same key it marks, so no dirty tombstones survive. -/
theorem c10_dirty_subset (ops : List CacheOp) (k : Int)
    (h : k ∈ (execOps Cache.new ops).GetDirtyKeys) :
    k ∈ (execOps Cache.new ops).data.map Prod.fst := by
  rcases execOps_dirtyInv ops with ⟨hsub, _⟩
  unfold Cache.GetDirtyKeys at h
  have h1 : k ∈ ((execOps Cache.new ops).dirty.filter fun kv => kv.2).map Prod.fst :=
    (sortInts_perm _).mem_iff.mp h
  rcases List.mem_map.mp h1 with ⟨kv, hkv, hfst⟩
  exact hfst ▸ hsub kv (List.mem_of_mem_filter hkv)

/-- C10 witness: set two keys, delete one; the remaining dirty key 2 is in
the data map. -/
theorem c10_dirty_subset_witness :
    (2 : Int) ∈ (execOps Cache.new [CacheOp.set 2 ⟨2, []⟩, CacheOp.set 3 ⟨3, []⟩,
        CacheOp.delete 3]).GetDirtyKeys ∧
    (2 : Int) ∈ (execOps Cache.new [CacheOp.set 2 ⟨2, []⟩, CacheOp.set 3 ⟨3, []⟩,
        CacheOp.delete 3]).data.map Prod.fst :=
  ⟨by decide,
    c10_dirty_subset [CacheOp.set 2 ⟨2, []⟩, CacheOp.set 3 ⟨3, []⟩, CacheOp.delete 3] 2
      (by decide)⟩

/-- C9 counterexample: starting from a cache with dirty key 2, a Set of key 3
lands after the records snapshot was taken and before the adapter call
completes; the save succeeds, and afterwards key 3 is no longer dirty (the
dirty set is empty) and the snapshot that was persisted does not contain the
key-3 record — contradicting the claim that such a key is still marked dirty
after the save finishes. -/
theorem c9_counterexample :
    (Cache.new.Set 2 ⟨2, [("a", GoValue.vint 1)]⟩).GetDirtyKeys = [2] ∧
    ((Cache.new.Set 2 ⟨2, [("a", GoValue.vint 1)]⟩).Set 3 ⟨3, []⟩).GetDirtyKeys = [2, 3] ∧
    (interleavedSave (Cache.new.Set 2 ⟨2, [("a", GoValue.vint 1)]⟩) id
        (fun c : Cache => c.Set 3 ⟨3, []⟩) true).1.GetDirtyKeys = [] ∧
    (interleavedSave (Cache.new.Set 2 ⟨2, [("a", GoValue.vint 1)]⟩) id
        (fun c : Cache => c.Set 3 ⟨3, []⟩) true).2 = some [⟨2, [("a", GoValue.vint 1)]⟩] :=
  ⟨rfl, rfl, rfl, rfl⟩

/-- C9 as amended: a successful save clears the entire dirty map through
ClearDirty, including keys mutated after the records snapshot was taken; such
mutations are not in the persisted snapshot (which reflects only mutations
landing before GetAllRecords ran), and the immediately following save attempt
short-circuits on the empty dirty set without calling the adapter, so those
mutations are not seen by the next save. Only a failed save leaves the
mutated dirty state in place. -/
theorem c9_save_clears_all (c : Cache) (mut1 mut2 : Cache → Cache)
    (hne : c.GetDirtyKeys ≠ []) (maxRetries : Nat) (st : SyncStrategy)
    (outcomes : Nat → Bool) :
    (interleavedSave c mut1 mut2 true).1 = (mut2 (mut1 c)).ClearDirty ∧
    (interleavedSave c mut1 mut2 true).1.dirty = [] ∧
    (interleavedSave c mut1 mut2 true).2 = some ((mut1 c).GetAllRecords) ∧
    saveToAdapter (interleavedSave c mut1 mut2 true).1 maxRetries st outcomes =
      (.ok (), (interleavedSave c mut1 mut2 true).1, []) ∧
    (interleavedSave c mut1 mut2 false).1 = mut2 (mut1 c) := by
  have hempty : c.GetDirtyKeys.isEmpty = false := by
    cases hd : c.GetDirtyKeys with
    | nil => exact absurd hd hne
    | cons x xs => rfl
  have h1 : (interleavedSave c mut1 mut2 true).1 = (mut2 (mut1 c)).ClearDirty := by
    simp [interleavedSave, hempty]
  refine ⟨h1, by rw [h1]; rfl, by simp [interleavedSave, hempty], ?_,
    by simp [interleavedSave, hempty]⟩
  rw [h1]
  simp [saveToAdapter, Cache.GetDirtyKeys, Cache.ClearDirty, sortInts]

/-- C9 witness: the amended statement on a concrete dirty cache and a
concrete concurrent Set. -/
theorem c9_save_clears_all_witness :
    (Cache.new.Set 4 ⟨4, []⟩).GetDirtyKeys ≠ [] ∧
    ((interleavedSave (Cache.new.Set 4 ⟨4, []⟩) id (fun c : Cache => c.Set 5 ⟨5, []⟩) true).1 =
      ((fun c : Cache => c.Set 5 ⟨5, []⟩) (id (Cache.new.Set 4 ⟨4, []⟩))).ClearDirty ∧
    (interleavedSave (Cache.new.Set 4 ⟨4, []⟩) id (fun c : Cache => c.Set 5 ⟨5, []⟩) true).1.dirty
        = [] ∧
    (interleavedSave (Cache.new.Set 4 ⟨4, []⟩) id (fun c : Cache => c.Set 5 ⟨5, []⟩) true).2 =
      some ((id (Cache.new.Set 4 ⟨4, []⟩)).GetAllRecords) ∧
    saveToAdapter
        (interleavedSave (Cache.new.Set 4 ⟨4, []⟩) id (fun c : Cache => c.Set 5 ⟨5, []⟩) true).1
        2 .gapPreserving (fun _ => true) =
      (.ok (),
        (interleavedSave (Cache.new.Set 4 ⟨4, []⟩) id (fun c : Cache => c.Set 5 ⟨5, []⟩) true).1,
        []) ∧
    (interleavedSave (Cache.new.Set 4 ⟨4, []⟩) id (fun c : Cache => c.Set 5 ⟨5, []⟩) false).1 =
      (fun c : Cache => c.Set 5 ⟨5, []⟩) (id (Cache.new.Set 4 ⟨4, []⟩))) :=
  ⟨by decide,
    c9_save_clears_all (Cache.new.Set 4 ⟨4, []⟩) id (fun c : Cache => c.Set 5 ⟨5, []⟩)
      (by decide) 2 .gapPreserving (fun _ => true)⟩

theorem saveToAdapter_strategies (c : Cache) (n : Nat) (st : SyncStrategy)
    (outcomes : Nat → Bool) :
    ∀ x ∈ (saveToAdapter c n st outcomes).2.2, x = st := by
  unfold saveToAdapter
  cases hd : c.GetDirtyKeys.isEmpty with
  | true =>
    intro x hx
    simp at hx
  | false =>
    rcases hsl : saveLoop c outcomes 0 (n + 1) with ⟨res, c', calls⟩
    intro x hx
    simp only [Bool.false_eq_true, if_false, hsl] at hx
    exact List.eq_of_mem_replicate hx

theorem clientStep_calls_spec (n : Nat) (s : CState) (e : CEvent) :
    ∀ call ∈ (clientStep n s e).2,
      ((call.origin = .oSync ∨ call.origin = .oTick) → call.strategy = .gapPreserving) ∧
      (call.origin = .oClose → call.strategy = .compacting) := by
  cases e with
  | sync outcomes =>
    cases hsc : s.closed with
    | true => simp [clientStep, hsc]
    | false =>
      rcases hsave : saveToAdapter s.cache n .gapPreserving outcomes with ⟨res, c', strategies⟩
      intro call hcall
      simp only [clientStep, hsc, Bool.false_eq_true, if_false, hsave] at hcall
      rcases List.mem_map.mp hcall with ⟨st', hst', rfl⟩
      have hst : st' = .gapPreserving := by
        have := saveToAdapter_strategies s.cache n .gapPreserving outcomes st'
        rw [hsave] at this
        exact this hst'
      subst hst
      exact ⟨fun _ => rfl, fun h' => SaveOrigin.noConfusion h'⟩
  | tick outcomes =>
    cases hsc : s.closed with
    | true => simp [clientStep, hsc]
    | false =>
      cases hdk : s.cache.GetDirtyKeys.isEmpty with
      | true => simp [clientStep, hsc, hdk]
      | false =>
        rcases hsave : saveToAdapter s.cache n .gapPreserving outcomes with ⟨res, c', strategies⟩
        intro call hcall
        simp only [clientStep, hsc, hdk, Bool.false_eq_true, if_false, hsave] at hcall
        rcases List.mem_map.mp hcall with ⟨st', hst', rfl⟩
        have hst : st' = .gapPreserving := by
          have := saveToAdapter_strategies s.cache n .gapPreserving outcomes st'
          rw [hsave] at this
          exact this hst'
        subst hst
        exact ⟨fun _ => rfl, fun h' => SaveOrigin.noConfusion h'⟩
  | close outcomes =>
    cases hsc : s.closed with
    | true => simp [clientStep, hsc]
    | false =>
      rcases hsave : saveToAdapter s.cache n .compacting outcomes with ⟨res, c', strategies⟩
      intro call hcall
      simp only [clientStep, hsc, Bool.false_eq_true, if_false, hsave] at hcall
      rcases List.mem_map.mp hcall with ⟨st', hst', rfl⟩
      have hst : st' = .compacting := by
        have := saveToAdapter_strategies s.cache n .compacting outcomes st'
        rw [hsave] at this
        exact this hst'
      subst hst
      refine ⟨fun h' => ?_, fun _ => rfl⟩
      rcases h' with h' | h' <;> exact SaveOrigin.noConfusion h'
  | setRec key record =>
    cases hsc : s.closed with
    | true => simp [clientStep, hsc]
    | false => simp [clientStep, hsc]
  | deleteRec key =>
    cases hsc : s.closed with
    | true => simp [clientStep, hsc]
    | false =>
      cases hdel : s.cache.Delete key with
      | ok c' => simp [clientStep, hsc, hdel]
      | error err => simp [clientStep, hsc, hdel]

theorem clientStep_closed (n : Nat) (s : CState) (h : s.closed = true) (e : CEvent) :
    clientStep n s e = (s, []) := by
  cases e <;> simp [clientStep, h]

theorem clientRun_calls_spec (n : Nat) (s : CState) (events : List CEvent) :
    ∀ call ∈ (clientRun n s events).2,
      ((call.origin = .oSync ∨ call.origin = .oTick) → call.strategy = .gapPreserving) ∧
      (call.origin = .oClose → call.strategy = .compacting) := by
  induction events generalizing s with
  | nil =>
    intro call hcall
    simp [clientRun] at hcall
  | cons e es ih =>
    intro call hcall
    rcases hstep : clientStep n s e with ⟨s', calls⟩
    have hrun : (clientRun n s (e :: es)).2 = calls ++ (clientRun n s' es).2 := by
      simp [clientRun, hstep]
    rw [hrun, List.mem_append] at hcall
    rcases hcall with hcall | hcall
    · have := clientStep_calls_spec n s e call
      rw [hstep] at this
      exact this hcall
    · exact ih s' call hcall

/-- C1, against the spec-modelled strategy selection (src/client.go predates
the strategy parameter; see saveToAdapter): in every run of the client from
the initial state, every adapter save call requested by an explicit Sync or
by a scheduler tick carries the gap-preserving (row-preserving) strategy and
every save call requested by Close carries the compacting strategy; once the
client is closed no event produces any further adapter call, and Close on an
open client closes it — so the compacting save of the first Close is the
single final save. -/
theorem c1_strategy_selection (n : Nat) (events : List CEvent) :
    (∀ call ∈ (clientRun n initialCState events).2,
      ((call.origin = .oSync ∨ call.origin = .oTick) → call.strategy = .gapPreserving) ∧
      (call.origin = .oClose → call.strategy = .compacting)) ∧
    (∀ s : CState, s.closed = true → ∀ more : List CEvent, (clientRun n s more).2 = []) ∧
    (∀ s : CState, ∀ outcomes : Nat → Bool, s.closed = false →
      (clientStep n s (.close outcomes)).1.closed = true) := by
  refine ⟨clientRun_calls_spec n initialCState events, ?_, ?_⟩
  · intro s hs more
    induction more with
    | nil => rfl
    | cons e es ih =>
      have hstep := clientStep_closed n s hs e
      simp [clientRun, hstep, ih]
  · intro s outcomes hs
    rcases hsave : saveToAdapter s.cache n .compacting outcomes with ⟨res, c', strategies⟩
    simp [clientStep, hs, hsave]

/-- C1 witness: a concrete run — mutate, Sync, mutate, Close — produces one
gap-preserving save call from Sync and one compacting save call from Close. -/
theorem c1_strategy_selection_witness :
    ((⟨.oSync, .gapPreserving⟩ : SaveCall) ∈
      (clientRun 0 initialCState
        [CEvent.setRec 2 ⟨2, []⟩, CEvent.sync (fun _ => true), CEvent.setRec 3 ⟨3, []⟩,
          CEvent.close (fun _ => true)]).2) ∧
    ((⟨.oClose, .compacting⟩ : SaveCall) ∈
      (clientRun 0 initialCState
        [CEvent.setRec 2 ⟨2, []⟩, CEvent.sync (fun _ => true), CEvent.setRec 3 ⟨3, []⟩,
          CEvent.close (fun _ => true)]).2) ∧
    (⟨.oSync, .gapPreserving⟩ : SaveCall).strategy = .gapPreserving ∧
    (⟨.oClose, .compacting⟩ : SaveCall).strategy = .compacting :=
  ⟨by decide, by decide,
    ((c1_strategy_selection 0
        [CEvent.setRec 2 ⟨2, []⟩, CEvent.sync (fun _ => true), CEvent.setRec 3 ⟨3, []⟩,
          CEvent.close (fun _ => true)]).1
      ⟨.oSync, .gapPreserving⟩ (by decide)).1 (Or.inl rfl),
    ((c1_strategy_selection 0
        [CEvent.setRec 2 ⟨2, []⟩, CEvent.sync (fun _ => true), CEvent.setRec 3 ⟨3, []⟩,
          CEvent.close (fun _ => true)]).1
      ⟨.oClose, .compacting⟩ (by decide)).2 rfl⟩
